import Mathlib

/-!
Shallow embedding of the DynamicalSystemFramework core data structures:
`SparseMatrix` (src/dsm/headers/SparseMatrix.hpp) and the node hierarchy
`Node` / `TrafficLight` / `Roundabout` (src/dsm/headers/Node.hpp).
The unsigned template parameters `Index`, `Id`, `Size`, `Delay` are
instantiated at 32-bit unsigned integers (`uint32_t`, as in the benchmark
driver); machine arithmetic is `Nat` reduced mod `2 ^ 32` wherever the
source expression can wrap.
-/

namespace DSM

/-- Width of the unsigned integer types (uint32_t has 2^32 values). -/
def W : Nat := 2 ^ 32

/-- Reduction mod 2^32: the value of an unsigned 32-bit expression. -/
def m32 (x : Nat) : Nat := x % W

variable {α β γ : Type}

/-! Entry list of a `std::unordered_map<Index, T>` with its operations.
Keys are unique; iteration order is the list order. -/

/-- Lookup (`find`): the value stored at key `k`, if any. -/
def mfind (k : Nat) : List (Nat × α) → Option α
  | [] => none
  | (k2, v) :: t => if k2 = k then some v else mfind k t

/-- Key membership (`std::unordered_map::contains`). -/
def mhas (k : Nat) (l : List (Nat × α)) : Bool := (mfind k l).isSome

/-- Semantics of `std::unordered_map::emplace`: inserts only when the key is absent. -/
def memplace (k : Nat) (v : α) (l : List (Nat × α)) : List (Nat × α) :=
  if mhas k l then l else l ++ [(k, v)]

/-- Semantics of `std::unordered_map::insert_or_assign`: overwrite or append. -/
def massign (k : Nat) (v : α) : List (Nat × α) → List (Nat × α)
  | [] => [(k, v)]
  | (k2, v2) :: t => if k2 = k then (k, v) :: t else (k2, v2) :: massign k v t

/-- Semantics of `std::unordered_map::erase` by key. -/
def merase (k : Nat) : List (Nat × α) → List (Nat × α)
  | [] => []
  | (k2, v2) :: t => if k2 = k then t else (k2, v2) :: merase k t

/-- The SparseMatrix class (src/dsm/headers/SparseMatrix.hpp): a hash map from
linear indices `i * cols + j` to values, plus the two dimensions. The default
return value `_defaultReturn` is 0. -/
structure SpMat (α : Type) where
  matrix : List (Nat × α)
  rows : Nat
  cols : Nat
deriving DecidableEq, Repr

namespace SpMat

/-- Constructor SparseMatrix(rows, cols): empty matrix with the given dimensions. -/
def ofDims (r c : Nat) : SpMat α := ⟨[], r, c⟩

/-- Value of the unsigned expression `_rows * _cols - 1` used by the range checks. -/
def ub (m : SpMat α) : Nat := m32 (m32 (m.rows * m.cols) + W - 1)

/-- SparseMatrix::insert(Index i, T value): range check, then `_matrix.emplace`. -/
def insertLin (m : SpMat α) (i : Nat) (v : α) : Except String (SpMat α) :=
  if i > m.ub then .error "Index out of range"
  else .ok { m with matrix := memplace i v m.matrix }

/-- SparseMatrix::insert(Index i, Index j, T value): linearizes and delegates. -/
def insertAt (m : SpMat α) (i j : Nat) (v : α) : Except String (SpMat α) :=
  m.insertLin (m32 (i * m.cols + j)) v

/-- SparseMatrix::insert_or_assign(Index index, T value). -/
def assignLin (m : SpMat α) (i : Nat) (v : α) : Except String (SpMat α) :=
  if i > m.ub then .error "Index out of range"
  else .ok { m with matrix := massign i v m.matrix }

/-- SparseMatrix::insert_or_assign(Index i, Index j, T value). -/
def assignAt (m : SpMat α) (i j : Nat) (v : α) : Except String (SpMat α) :=
  m.assignLin (m32 (i * m.cols + j)) v

/-- SparseMatrix::contains(Index index). -/
def containsLin (m : SpMat α) (i : Nat) : Except String Bool :=
  if i > m.ub then .error "Index out of range" else .ok (mhas i m.matrix)

/-- SparseMatrix::operator()(Index i, Index j) const: reads a cell, defaulting to 0. -/
def atCell [Zero α] (m : SpMat α) (i j : Nat) : Except String α :=
  if i ≥ m.rows ∨ j ≥ m.cols then .error "Index out of range"
  else .ok ((mfind (m32 (i * m.cols + j)) m.matrix).getD 0)

end SpMat

/-- Sequential loop over a list where the body may throw, mirroring a C++ `for`
loop whose body may raise an exception that propagates out. -/
def foldE (f : β → γ → Except String β) : List γ → β → Except String β
  | [], b => .ok b
  | x :: l, b =>
    match f b x with
    | .error e => .error e
    | .ok b2 => foldE f l b2

namespace SpMat

/-- Loop body of getDegreeVector: degreeVector.insert_or_assign(key / cols, 0,
degreeVector(key / cols, 0) + 1). -/
def degBody (c : Nat) (acc : SpMat Int) (p : Nat × α) : Except String (SpMat Int) :=
  match acc.atCell (p.1 / c) 0 with
  | .error e => .error e
  | .ok d => acc.assignAt (p.1 / c) 0 (d + 1)

/-- SparseMatrix::getDegreeVector. -/
def getDegreeVector (m : SpMat α) : Except String (SpMat Int) :=
  if m.rows ≠ m.cols then .error "getDegreeVector only works on square matrices"
  else foldE (degBody m.cols) m.matrix (ofDims m.rows 1)

/-- Loop body of the first getLaplacian pass:
laplacian.insert_or_assign(key / cols, key % cols, -1). -/
def lapBody (c : Nat) (acc : SpMat Int) (p : Nat × α) : Except String (SpMat Int) :=
  acc.assignAt (p.1 / c) (p.1 % c) (-1)

/-- Loop body of the second getLaplacian pass:
laplacian.insert_or_assign(i, i, degreeVector(i, 0)). -/
def diagBody (deg : SpMat Int) (acc : SpMat Int) (i : Nat) : Except String (SpMat Int) :=
  match deg.atCell i 0 with
  | .error e => .error e
  | .ok d => acc.assignAt i i d

/-- SparseMatrix::getLaplacian. -/
def getLaplacian (m : SpMat α) : Except String (SpMat Int) :=
  if m.rows ≠ m.cols then .error "getLaplacian only works on square matrices"
  else
    match foldE (lapBody m.cols) m.matrix (ofDims m.rows m.cols) with
    | .error e => .error e
    | .ok lap =>
      match getDegreeVector m with
      | .error e => .error e
      | .ok deg => foldE (diagBody deg) (List.range m.rows) lap

/-- Loop body of reshape(rows, cols): erase the old key, re-insert cells whose
old linear index still fits, re-keyed through the old column count. -/
def reshapeBody (oldCols r c : Nat) (acc : SpMat α) (p : Nat × α) : Except String (SpMat α) :=
  let acc2 : SpMat α := { acc with matrix := merase p.1 acc.matrix }
  if p.1 < m32 (r * c) then acc2.assignAt (p.1 / oldCols) (p.1 % oldCols) p.2
  else .ok acc2

/-- SparseMatrix::reshape(Index rows, Index cols): the dimensions are replaced
before the copy loop runs. -/
def reshape2 (m : SpMat α) (r c : Nat) : Except String (SpMat α) :=
  foldE (reshapeBody m.cols r c) m.matrix { m with rows := r, cols := c }

/-- Loop body of getRow: copy the entries of the selected row (`keepIndex`
keeps the linear key, otherwise the column index is used). -/
def getRowBody (c index : Nat) (keepIndex : Bool) (acc : SpMat α) (p : Nat × α) :
    Except String (SpMat α) :=
  if p.1 / c = index then
    acc.insertLin (if keepIndex then p.1 else p.1 % c) p.2
  else .ok acc

/-- SparseMatrix::getRow(Index index, bool keepIndex). -/
def getRow (m : SpMat α) (index : Nat) (keepIndex : Bool) : Except String (SpMat α) :=
  if index ≥ m.rows then .error "Index out of range"
  else
    match (if keepIndex then reshape2 (ofDims 1 m.cols) m.rows m.cols
           else .ok (ofDims 1 m.cols)) with
    | .error e => .error e
    | .ok row => foldE (getRowBody m.cols index keepIndex) m.matrix row

/-- Machine epsilon of double (std::numeric_limits<double>::epsilon()),
as an exact rational; double values are modelled as exact rationals. -/
def eps : ℚ := 1 / 2 ^ 52

/-- Inner loop body of getNormRows: normRows.insert(key, value / sum). -/
def normInsBody (s : ℚ) (acc : SpMat ℚ) (p : Nat × ℚ) : Except String (SpMat ℚ) :=
  acc.insertLin p.1 (p.2 / s)

/-- Divisor computed by the getNormRows loop from the extracted row: the sum of
the absolute values of its entries, replaced by 1 when below machine epsilon. -/
def normDivisor (l : List (Nat × ℚ)) : ℚ :=
  let s : ℚ := l.foldl (fun t p => t + |p.2|) 0
  if s < eps then 1 else s

/-- Outer loop body of getNormRows: extract row `index` with kept indices,
compute the divisor, then insert each entry divided by it. -/
def normRowBody (m : SpMat ℚ) (acc : SpMat ℚ) (index : Nat) : Except String (SpMat ℚ) :=
  match m.getRow index true with
  | .error e => .error e
  | .ok row => foldE (normInsBody (normDivisor row.matrix)) row.matrix acc

/-- SparseMatrix::getNormRows. -/
def getNormRows (m : SpMat ℚ) : Except String (SpMat ℚ) :=
  foldE (normRowBody m) (List.range m.rows) (ofDims m.rows m.cols)

end SpMat

/-- Entries of row `r` of an entry list under column count `c` (the cell with
linear key `k` lies in row `k / c`). -/
def rowEntries (c r : Nat) (l : List (Nat × α)) : List (Nat × α) :=
  l.filter (fun p => decide (p.1 / c = r))

/-- Count of the stored entries of row `r`. -/
def rowCount (c r : Nat) (l : List (Nat × α)) : Nat := (rowEntries c r l).length

/-- L1 norm of row `r`: the sum of the absolute values of its stored entries. -/
def rowL1 (c r : Nat) (l : List (Nat × ℚ)) : ℚ :=
  ((rowEntries c r l).map (fun p => |p.2|)).sum

/-- Divisor getNormRows ends up using for row `r`: the row's L1 norm, or 1 when
that norm is below machine epsilon. -/
def rowDiv (m : SpMat ℚ) (r : Nat) : ℚ :=
  if rowL1 m.cols r m.matrix < SpMat.eps then 1 else rowL1 m.cols r m.matrix

/-- Conversion of an `int` value to `int16_t` (two's-complement wrap), applied
when a key is stored into the `std::multimap<int16_t, Id>`. -/
def wrap16 (z : Int) : Int := (z + 2 ^ 15) % 2 ^ 16 - 2 ^ 15

/-- Ordered insertion into the agent multimap: the new entry goes after every
entry whose key is less than or equal to its own (multimap emplace). -/
def multimapInsert (k : Int) (v : Nat) : List (Int × Nat) → List (Int × Nat)
  | [] => [(k, v)]
  | (k2, v2) :: t =>
    if k < k2 then (k, v) :: (k2, v2) :: t else (k2, v2) :: multimapInsert k v t

/-- The Node (intersection) class of src/dsm/headers/Node.hpp: an angle-keyed
multimap of waiting agents (kept sorted by key), the priority street set, the
pass-through counter and the capacity. -/
structure NodeI where
  agents : List (Int × Nat)
  streetPriorities : List Nat
  agentCounter : Nat
  capacity : Nat
deriving DecidableEq, Repr

namespace NodeI

/-- Node::setCapacity: rejects a capacity below the current queue size. The
result pairs the raised error (if any) with the object state after the call. -/
def setCapacityE (n : NodeI) (c : Nat) : Option String × NodeI :=
  if c < n.agents.length then
    (some "Node capacity is smaller than the current queue size", n)
  else (none, { n with capacity := c })

/-- Node::addAgent(double angle, Id agentId). The quantized key
`static_cast<int16_t>(angle * 100)` is taken as the integer argument `iAngle`
(the double multiplication itself is not modelled); the int16 cast is `wrap16`. -/
def addAgentAngleE (n : NodeI) (iAngle : Int) (agentId : Nat) : Option String × NodeI :=
  if n.agents.length = n.capacity then (some "Node is full", n)
  else if (n.agents.map Prod.snd).contains agentId then
    (some "Agent is already on the node.", n)
  else
    (none, { n with agents := multimapInsert (wrap16 iAngle) agentId n.agents,
                    agentCounter := m32 (n.agentCounter + 1) })

/-- Node::addAgent(Id agentId): keyed one past the current largest key (the
last entry of the sorted multimap), 0 when empty. -/
def addAgentIdE (n : NodeI) (agentId : Nat) : Option String × NodeI :=
  if n.agents.length = n.capacity then (some "Node is full", n)
  else if (n.agents.map Prod.snd).contains agentId then
    (some "Agent is already on the node.", n)
  else
    let lastKey : Int :=
      match n.agents.getLast? with
      | none => 0
      | some p => p.1 + 1
    (none, { n with agents := multimapInsert (wrap16 lastKey) agentId n.agents,
                    agentCounter := m32 (n.agentCounter + 1) })

/-- Erase the first multimap entry whose value is the given agent id. -/
def removeFirst (agentId : Nat) : List (Int × Nat) → Option (List (Int × Nat))
  | [] => none
  | (k, v) :: t =>
    if v = agentId then some t
    else (removeFirst agentId t).map (fun l => (k, v) :: l)

/-- Node::removeAgent(Id agentId). -/
def removeAgentE (n : NodeI) (agentId : Nat) : Option String × NodeI :=
  match removeFirst agentId n.agents with
  | some l => (none, { n with agents := l })
  | none => (some "Agent is not on the node", n)

/-- Node::agentCounter(): returns the counter and resets it. -/
def agentCounterE (n : NodeI) : Nat × NodeI := (n.agentCounter, { n with agentCounter := 0 })

/-- Node::isFull. -/
def isFull (n : NodeI) : Bool := n.agents.length = n.capacity

end NodeI

/-- The TrafficLight class: the Node fields plus the optional (green, red)
delay pair, the cyclic counter and the pending next-cycle phase. -/
structure TrafficLight where
  agents : List (Int × Nat)
  streetPriorities : List Nat
  agentCounter : Nat
  capacity : Nat
  delay : Option (Nat × Nat)
  counter : Nat
  phase : Nat
deriving DecidableEq, Repr

namespace TrafficLight

/-- TrafficLight::setDelay(Delay delay), the single-argument overload; its
first branch compares the counter against the NEW green plus the OLD red. -/
def setDelay1 (tl : TrafficLight) (d : Nat) : TrafficLight :=
  let tl2 :=
    match tl.delay with
    | none => tl
    | some (g, r) =>
      if tl.counter ≥ m32 (d + r) then { tl with counter := m32 (m32 (d + r) + W - 1) }
      else if d < g then
        if tl.counter ≥ d ∧ tl.counter ≤ g then
          { tl with counter := m32 (d + W - (g - tl.counter)) }
        else tl
      else tl
  { tl2 with delay := some (d, d) }

/-- TrafficLight::setDelay(std::pair) overload. -/
def setDelayPair (tl : TrafficLight) (g2 r2 : Nat) : TrafficLight :=
  let tl2 :=
    match tl.delay with
    | none => tl
    | some (g, _r) =>
      if tl.counter ≥ m32 (g2 + r2) then
        { tl with counter := m32 (m32 (g2 + r2) + W - 1) }
      else if g2 < g then
        if tl.counter ≥ g2 ∧ tl.counter ≤ g then
          { tl with counter := m32 (g2 + W - (g - tl.counter)) }
        else tl
      else tl
  { tl2 with delay := some (g2, r2) }

/-- TrafficLight::setPhase(Delay phase): requires the delay; one subtraction
when the argument exceeds green + red; clears the pending phase. -/
def setPhase (tl : TrafficLight) (p : Nat) : Except String TrafficLight :=
  match tl.delay with
  | none => .error "TrafficLight delay has not been set."
  | some (g, r) =>
    let q := if p > m32 (g + r) then p - m32 (g + r) else p
    .ok { tl with counter := q, phase := 0 }

/-- TrafficLight::setPhaseAfterCycle(Delay phase): dereferences the delay
(std::bad_optional_access when unset) and stores the reduced pending phase. -/
def setPhaseAfterCycle (tl : TrafficLight) (p : Nat) : Except String TrafficLight :=
  match tl.delay with
  | none => .error "bad optional access"
  | some (g, r) =>
    .ok { tl with phase := if p > m32 (g + r) then p - m32 (g + r) else p }

/-- TrafficLight::increaseCounter. -/
def increaseCounter (tl : TrafficLight) : Except String TrafficLight :=
  match tl.delay with
  | none => .error "TrafficLight delay has not been set."
  | some (g, r) =>
    let c := m32 (tl.counter + 1)
    if c = m32 (g + r) then
      if tl.phase ≠ 0 then .ok { tl with counter := tl.phase, phase := 0 }
      else .ok { tl with counter := 0 }
    else .ok { tl with counter := c }

/-- TrafficLight::isGreen(). -/
def isGreen (tl : TrafficLight) : Except String Bool :=
  match tl.delay with
  | none => .error "TrafficLight delay has not been set."
  | some (g, _r) => .ok (decide (tl.counter < g))

/-- TrafficLight::isGreen(Id streetId). -/
def isGreenStreet (tl : TrafficLight) (streetId : Nat) : Except String Bool :=
  match tl.delay with
  | none => .error "TrafficLight delay has not been set."
  | some _ =>
    let hasPriority := tl.streetPriorities.contains streetId
    match tl.isGreen with
    | .error e => .error e
    | .ok grn => if grn then .ok hasPriority else .ok (!hasPriority)

end TrafficLight

/-- Modelled from the spec: `dsm::queue<Id>` comes from `utility/queue.hpp`,
which is absent from the sources; the spec describes the Roundabout payload as
a FIFO queue of agent ids, so it is a list pushed at the back and popped at
the head. -/
abbrev dsmQueue : Type := List Nat

/-- The Roundabout class: a FIFO queue of agent ids plus the capacity. -/
structure Roundabout where
  agents : dsmQueue
  capacity : Nat
deriving DecidableEq, Repr

namespace Roundabout

/-- Roundabout::enqueue(Id agentId). -/
def enqueueE (rb : Roundabout) (agentId : Nat) : Option String × Roundabout :=
  if rb.agents.length = rb.capacity then (some "Roundabout is full", rb)
  else if rb.agents.contains agentId then
    (some "Agent is already on the roundabout.", rb)
  else (none, { rb with agents := rb.agents ++ [agentId] })

/-- Roundabout::dequeue(). -/
def dequeueE (rb : Roundabout) : Except String Nat × Roundabout :=
  match rb.agents with
  | [] => (.error "Roundabout is empty", rb)
  | a :: t => (.ok a, { rb with agents := t })

/-- Roundabout::isFull. -/
def isFull (rb : Roundabout) : Bool := rb.agents.length = rb.capacity

end Roundabout

/-! Concrete states used by counterexamples and witnesses. -/

/-- Example 2x2 integer matrix with stored entries (0,0) = 2 and (0,1) = 5. -/
def exA : SpMat Int := ⟨[(0, 2), (1, 5)], 2, 2⟩

/-- Example 2x2 integer matrix holding the single entry (0,1) = 7. -/
def exB : SpMat Int := ⟨[(1, 7)], 2, 2⟩

/-- Default-constructed SparseMatrix: no entries, both dimensions 0. -/
def exEmpty : SpMat Int := ⟨[], 0, 0⟩

/-- Example 1x1 rational matrix whose only stored entry is the value 0. -/
def exZeroRow : SpMat ℚ := ⟨[(0, 0)], 1, 1⟩

/-- Example 1x2 rational matrix with row entries 3 and 1. -/
def exQ : SpMat ℚ := ⟨[(0, 3), (1, 1)], 1, 2⟩

/-- TrafficLight with delay (5,5) and counter 9, no pending phase. -/
def tlOld : TrafficLight := ⟨[], [], 0, 1, some (5, 5), 9, 0⟩

/-- TrafficLight with delay (2,2), counter 0, no pending phase. -/
def tlSmall : TrafficLight := ⟨[], [], 0, 1, some (2, 2), 0, 0⟩

/-- TrafficLight with delay (2,2), counter 3 and pending phase 4. -/
def tlPend : TrafficLight := ⟨[], [], 0, 1, some (2, 2), 3, 4⟩

/-- TrafficLight with delay (3,2), counter 1, priority street 7. -/
def tlPrio : TrafficLight := ⟨[], [7], 0, 1, some (3, 2), 1, 0⟩

/-- Intersection node with one queued agent (id 1) and capacity 1 (full). -/
def ndFull : NodeI := ⟨[(0, 1)], [], 5, 1⟩

/-- Intersection node with one queued agent (id 1) and capacity 3. -/
def ndRoom : NodeI := ⟨[(0, 1)], [], 0, 3⟩

/-- Roundabout with an empty queue and capacity 3. -/
def rbEmpty : Roundabout := ⟨[], 3⟩

/-- Roundabout holding agent 9 with capacity 1 (full). -/
def rbFull : Roundabout := ⟨[9], 1⟩

/-! Basic facts about the machine arithmetic and the map model. -/

theorem m32_eq_of_lt {x : Nat} (h : x < W) : m32 x = x := Nat.mod_eq_of_lt h

theorem m32_lt (x : Nat) : m32 x < W := Nat.mod_lt _ (by decide)

/-- Unsigned value of `x - 1` at width 32 when `1 ≤ x < 2^32`. -/
theorem m32_pred {x : Nat} (h1 : 1 ≤ x) (h2 : x < W) : m32 (m32 x + W - 1) = x - 1 := by
  rw [m32_eq_of_lt h2]
  have hx : x + W - 1 = (x - 1) + W := by omega
  rw [m32, hx, Nat.add_mod_right]
  exact Nat.mod_eq_of_lt (by omega)

theorem mfind_append (k : Nat) (l1 l2 : List (Nat × α)) :
    mfind k (l1 ++ l2) =
      match mfind k l1 with
      | some v => some v
      | none => mfind k l2 := by
  induction l1 with
  | nil => simp [mfind]
  | cons p t ih =>
    obtain ⟨k2, v⟩ := p
    by_cases h : k2 = k <;> simp [mfind, h, ih]

theorem mfind_massign (k q : Nat) (v : α) (l : List (Nat × α)) :
    mfind q (massign k v l) = if q = k then some v else mfind q l := by
  induction l with
  | nil =>
    by_cases h : q = k
    · subst h; simp [massign, mfind]
    · simp [massign, mfind, h, Ne.symm h]
  | cons p t ih =>
    obtain ⟨k2, v2⟩ := p
    by_cases h : k2 = k
    · subst h
      by_cases hq : q = k2
      · subst hq; simp [massign, mfind]
      · simp [massign, mfind, hq, Ne.symm hq]
    · by_cases hq : q = k2
      · subst hq
        simp [massign, mfind, h]
      · simp [massign, mfind, h, Ne.symm hq, ih]

theorem mfind_memplace_of_mhas {k : Nat} {l : List (Nat × α)} (h : mhas k l = true) (v : α) :
    memplace k v l = l := by
  simp [memplace, h]

theorem mfind_memplace_of_not_mhas {k : Nat} {l : List (Nat × α)} (h : mhas k l = false)
    (v : α) : memplace k v l = l ++ [(k, v)] := by
  simp [memplace, h]

theorem mhas_memplace_self (k : Nat) (v : α) (l : List (Nat × α)) :
    mhas k (memplace k v l) = true := by
  by_cases h : mhas k l
  · simp [memplace, h]
  · have hn : mfind k l = none := by
      rcases ho : mfind k l with _ | w
      · rfl
      · exact absurd (by simp [mhas, ho]) h
    simp [memplace, h, mhas, mfind_append, hn, mfind]

theorem mhas_iff_mem_keys (k : Nat) (l : List (Nat × α)) :
    mhas k l = true ↔ k ∈ l.map Prod.fst := by
  induction l with
  | nil => simp [mhas, mfind]
  | cons p t ih =>
    obtain ⟨k2, v⟩ := p
    by_cases h : k2 = k
    · subst h; simp [mhas, mfind]
    · simp only [mhas, mfind, if_neg h, List.map_cons, List.mem_cons] at ih ⊢
      rw [ih]
      have hne : ¬k = k2 := Ne.symm h
      tauto

theorem mfind_eq_none_of_not_mhas {k : Nat} {l : List (Nat × α)} (h : mhas k l = false) :
    mfind k l = none := by
  rcases ho : mfind k l with _ | w
  · rfl
  · simp [mhas, ho] at h

theorem foldE_nil (f : β → γ → Except String β) (b : β) : foldE f [] b = .ok b := rfl

theorem foldE_cons (f : β → γ → Except String β) (x : γ) (l : List γ) (b : β) :
    foldE f (x :: l) b =
      match f b x with
      | .error e => .error e
      | .ok b2 => foldE f l b2 := rfl

namespace SpMat

/-- For an in-range area the unsigned `_rows * _cols - 1` is the true bound. -/
theorem ub_eq {m : SpMat α} (h1 : 1 ≤ m.rows * m.cols) (h2 : m.rows * m.cols < W) :
    m.ub = m.rows * m.cols - 1 := m32_pred h1 h2

/-- In-range cell coordinates give an in-range linear index. -/
theorem index_lt {i j r c : Nat} (hi : i < r) (hj : j < c) : i * c + j < r * c := by
  calc i * c + j < i * c + c := by omega
    _ = (i + 1) * c := by ring
    _ ≤ r * c := Nat.mul_le_mul hi le_rfl

end SpMat

/-- Claim C4: SparseMatrix::insert(i, j, v) fails to take effect when the cell
(i, j) already holds a value (the matrix is returned unchanged, so the cell
keeps its old value), whereas insert_or_assign(i, j, v) overwrites it; on a
free in-range cell both store the given value. -/
theorem C4_insert_vs_insert_or_assign (m : SpMat α) (i j : Nat) (v : α)
    (hi : i < m.rows) (hj : j < m.cols) (hW : m.rows * m.cols < W) :
    (mhas (i * m.cols + j) m.matrix = true →
      m.insertAt i j v = .ok m ∧
      ∃ m2, m.assignAt i j v = .ok m2 ∧ mfind (i * m.cols + j) m2.matrix = some v) ∧
    (mhas (i * m.cols + j) m.matrix = false →
      ∃ m1, m.insertAt i j v = .ok m1 ∧ mfind (i * m.cols + j) m1.matrix = some v ∧
        ∃ m2, m.assignAt i j v = .ok m2 ∧ mfind (i * m.cols + j) m2.matrix = some v) := by
  have hidx : i * m.cols + j < m.rows * m.cols := SpMat.index_lt hi hj
  have h1 : 1 ≤ m.rows * m.cols := by omega
  have hm : m32 (i * m.cols + j) = i * m.cols + j := m32_eq_of_lt (by omega)
  have hub : m.ub = m.rows * m.cols - 1 := SpMat.ub_eq h1 hW
  have hle : ¬ (i * m.cols + j > m.ub) := by omega
  constructor
  · intro hcontains
    refine ⟨?_, ⟨{ m with matrix := massign (i * m.cols + j) v m.matrix }, ?_, ?_⟩⟩
    · simp only [SpMat.insertAt, SpMat.insertLin, hm, if_neg hle,
        mfind_memplace_of_mhas hcontains]
    · simp only [SpMat.assignAt, SpMat.assignLin, hm, if_neg hle]
    · simp [mfind_massign]
  · intro habsent
    refine ⟨{ m with matrix := memplace (i * m.cols + j) v m.matrix }, ?_, ?_,
      { m with matrix := massign (i * m.cols + j) v m.matrix }, ?_, ?_⟩
    · simp only [SpMat.insertAt, SpMat.insertLin, hm, if_neg hle]
    · simp [mfind_memplace_of_not_mhas habsent, mfind_append,
        mfind_eq_none_of_not_mhas habsent, mfind]
    · simp only [SpMat.assignAt, SpMat.assignLin, hm, if_neg hle]
    · simp [mfind_massign]

/-- Witness for C4 at the concrete matrix exB: cell (0,1) is occupied (value 7
survives insert, 9 lands via insert_or_assign); cell (1,0) is free. -/
theorem C4_witness :
    (exB.insertAt 0 1 (9 : Int) = .ok exB ∧
      ∃ m2, exB.assignAt 0 1 (9 : Int) = .ok m2 ∧
        mfind (0 * exB.cols + 1) m2.matrix = some 9) ∧
    ∃ m1, exB.insertAt 1 0 (9 : Int) = .ok m1 ∧
      mfind (1 * exB.cols + 0) m1.matrix = some 9 ∧
      ∃ m2, exB.assignAt 1 0 (9 : Int) = .ok m2 ∧
        mfind (1 * exB.cols + 0) m2.matrix = some 9 :=
  ⟨(C4_insert_vs_insert_or_assign exB 0 1 9 (by decide) (by decide) (by decide)).1
      (by decide),
   (C4_insert_vs_insert_or_assign exB 1 0 9 (by decide) (by decide) (by decide)).2
      (by decide)⟩

/-- Claim C9: when `rows * cols = 0` (e.g. the default-constructed matrix),
the range check computes `rows * cols - 1` in unsigned arithmetic, which wraps
to the maximum index, so no linear index is ever rejected: insert raises no
out-of-range error and stores an entry, and contains raises no error either. -/
theorem C9_zero_area_no_range_error (m : SpMat α) (i : Nat) (v : α)
    (h0 : m32 (m.rows * m.cols) = 0) (hi : i < W) :
    (∃ m1, m.insertLin i v = .ok m1 ∧ mhas i m1.matrix = true) ∧
    ∃ b, m.containsLin i = .ok b := by
  have hub : m.ub = W - 1 := by
    rw [SpMat.ub, h0]
    decide
  have hle : ¬ (i > m.ub) := by omega
  refine ⟨⟨{ m with matrix := memplace i v m.matrix }, ?_, ?_⟩, mhas i m.matrix, ?_⟩
  · simp only [SpMat.insertLin, if_neg hle]
  · simp [mhas_memplace_self]
  · simp only [SpMat.containsLin, if_neg hle]

/-- Witness for C9 at the default-constructed matrix exEmpty and index 12345. -/
theorem C9_witness :
    (∃ m1, exEmpty.insertLin 12345 (7 : Int) = .ok m1 ∧ mhas 12345 m1.matrix = true) ∧
    ∃ b, exEmpty.containsLin 12345 = .ok b :=
  C9_zero_area_no_range_error exEmpty 12345 7 (by decide) (by decide)

theorem multimapInsert_length (k : Int) (v : Nat) (l : List (Int × Nat)) :
    (multimapInsert k v l).length = l.length + 1 := by
  induction l with
  | nil => rfl
  | cons p t ih =>
    obtain ⟨k2, v2⟩ := p
    by_cases h : k < k2 <;> simp [multimapInsert, h, ih]

theorem removeFirst_length (a : Nat) (l : List (Int × Nat)) (l2 : List (Int × Nat))
    (h : NodeI.removeFirst a l = some l2) : l2.length + 1 = l.length := by
  induction l generalizing l2 with
  | nil => simp [NodeI.removeFirst] at h
  | cons p t ih =>
    obtain ⟨k, v⟩ := p
    by_cases hv : v = a
    · simp only [NodeI.removeFirst, if_pos hv, Option.some.injEq] at h
      subst h; simp
    · simp only [NodeI.removeFirst, if_neg hv, Option.map_eq_some'] at h
      obtain ⟨l3, h3, rfl⟩ := h
      simp [← ih l3 h3]

/-- Claim C1: the intersection-node invariant |agents| <= capacity: addAgent
errors when the node is full or the agent is already present, setCapacity
errors when the requested capacity is below the current queue size, and every
Node operation preserves the invariant. -/
theorem C1_node_capacity_invariant (n : NodeI) (a c : Nat) (k : Int)
    (hinv : n.agents.length ≤ n.capacity) :
    ((n.addAgentIdE a).1.isSome ↔
      (n.agents.length = n.capacity ∨ (n.agents.map Prod.snd).contains a = true)) ∧
    ((n.setCapacityE c).1.isSome ↔ c < n.agents.length) ∧
    (n.addAgentIdE a).2.agents.length ≤ (n.addAgentIdE a).2.capacity ∧
    (n.addAgentAngleE k a).2.agents.length ≤ (n.addAgentAngleE k a).2.capacity ∧
    (n.setCapacityE c).2.agents.length ≤ (n.setCapacityE c).2.capacity ∧
    (n.removeAgentE a).2.agents.length ≤ (n.removeAgentE a).2.capacity ∧
    (n.agentCounterE).2.agents.length ≤ (n.agentCounterE).2.capacity := by
  refine ⟨?_, ?_, ?_, ?_, ?_, ?_, ?_⟩
  · by_cases hf : n.agents.length = n.capacity
    · simp only [NodeI.addAgentIdE, if_pos hf]
      exact ⟨fun _ => Or.inl hf, fun _ => rfl⟩
    · by_cases hp : (n.agents.map Prod.snd).contains a
      · simp only [NodeI.addAgentIdE, if_neg hf, if_pos hp]
        exact ⟨fun _ => Or.inr hp, fun _ => rfl⟩
      · simp only [NodeI.addAgentIdE, if_neg hf, if_neg hp]
        constructor
        · intro h
          exact absurd h (by simp)
        · rintro (h | h)
          · exact absurd h hf
          · exact absurd h hp
  · by_cases hc2 : c < n.agents.length
    · simp only [NodeI.setCapacityE, if_pos hc2]
      exact ⟨fun _ => hc2, fun _ => rfl⟩
    · simp only [NodeI.setCapacityE, if_neg hc2]
      constructor
      · intro h
        exact absurd h (by simp)
      · intro h
        exact absurd h hc2
  · by_cases hf : n.agents.length = n.capacity
    · simp only [NodeI.addAgentIdE, if_pos hf]
      exact hinv
    · by_cases hp : (n.agents.map Prod.snd).contains a
      · simp only [NodeI.addAgentIdE, if_neg hf, if_pos hp]
        exact hinv
      · simp only [NodeI.addAgentIdE, if_neg hf, if_neg hp]
        show (multimapInsert _ a n.agents).length ≤ n.capacity
        rw [multimapInsert_length]
        omega
  · by_cases hf : n.agents.length = n.capacity
    · simp only [NodeI.addAgentAngleE, if_pos hf]
      exact hinv
    · by_cases hp : (n.agents.map Prod.snd).contains a
      · simp only [NodeI.addAgentAngleE, if_neg hf, if_pos hp]
        exact hinv
      · simp only [NodeI.addAgentAngleE, if_neg hf, if_neg hp]
        show (multimapInsert _ a n.agents).length ≤ n.capacity
        rw [multimapInsert_length]
        omega
  · by_cases hc2 : c < n.agents.length
    · simp only [NodeI.setCapacityE, if_pos hc2]
      exact hinv
    · simp only [NodeI.setCapacityE, if_neg hc2]
      show n.agents.length ≤ c
      omega
  · rcases hr : NodeI.removeFirst a n.agents with _ | l2
    · simp only [NodeI.removeAgentE, hr]
      exact hinv
    · have hlen := removeFirst_length a n.agents l2 hr
      simp only [NodeI.removeAgentE, hr]
      show l2.length ≤ n.capacity
      omega
  · exact hinv

/-- Witness for C1 at a node with one agent and capacity 3. -/
theorem C1_witness :
    (ndRoom.addAgentIdE 5).2.agents.length ≤ (ndRoom.addAgentIdE 5).2.capacity ∧
    ((ndRoom.setCapacityE 0).1.isSome ↔ 0 < ndRoom.agents.length) :=
  ⟨(C1_node_capacity_invariant ndRoom 5 0 0 (by decide)).2.2.1,
   (C1_node_capacity_invariant ndRoom 5 0 0 (by decide)).2.1⟩

/-- Claim C10: Node::addAgent (both overloads) and Roundabout::enqueue throw
before any mutation, so on error the agent collection and the agent counter
are exactly as before the call (the whole state is unchanged). -/
theorem C10_error_atomicity (n : NodeI) (a : Nat) (k : Int) (rb : Roundabout) (b : Nat) :
    ((n.addAgentIdE a).1.isSome = true → (n.addAgentIdE a).2 = n) ∧
    ((n.addAgentAngleE k a).1.isSome = true → (n.addAgentAngleE k a).2 = n) ∧
    ((rb.enqueueE b).1.isSome = true → (rb.enqueueE b).2 = rb) := by
  refine ⟨?_, ?_, ?_⟩
  · by_cases hf : n.agents.length = n.capacity
    · simp only [NodeI.addAgentIdE, if_pos hf]
      exact fun _ => trivial
    · by_cases hp : (n.agents.map Prod.snd).contains a
      · simp only [NodeI.addAgentIdE, if_neg hf, if_pos hp]
        exact fun _ => trivial
      · simp only [NodeI.addAgentIdE, if_neg hf, if_neg hp]
        intro h
        exact absurd h (by simp)
  · by_cases hf : n.agents.length = n.capacity
    · simp only [NodeI.addAgentAngleE, if_pos hf]
      exact fun _ => trivial
    · by_cases hp : (n.agents.map Prod.snd).contains a
      · simp only [NodeI.addAgentAngleE, if_neg hf, if_pos hp]
        exact fun _ => trivial
      · simp only [NodeI.addAgentAngleE, if_neg hf, if_neg hp]
        intro h
        exact absurd h (by simp)
  · by_cases hf : rb.agents.length = rb.capacity
    · simp only [Roundabout.enqueueE, if_pos hf]
      exact fun _ => trivial
    · by_cases hp : rb.agents.contains b
      · simp only [Roundabout.enqueueE, if_neg hf, if_pos hp]
        exact fun _ => trivial
      · simp only [Roundabout.enqueueE, if_neg hf, if_neg hp]
        intro h
        exact absurd h (by simp)

/-- Witness for C10: a full node rejects agent 5 unchanged, and the full
roundabout rejects agent 3 unchanged. -/
theorem C10_witness :
    (ndFull.addAgentIdE 5).2 = ndFull ∧ (ndFull.addAgentAngleE 0 5).2 = ndFull ∧
    (rbFull.enqueueE 3).2 = rbFull :=
  ⟨(C10_error_atomicity ndFull 5 0 rbFull 3).1 (by decide),
   (C10_error_atomicity ndFull 5 0 rbFull 3).2.1 (by decide),
   (C10_error_atomicity ndFull 5 0 rbFull 3).2.2 (by decide)⟩

/-- Claim C8: Roundabout::dequeue errors exactly when the queue is empty;
enqueuing distinct agents a, b, c into an empty roundabout (capacity
permitting) succeeds, and three dequeues yield a, b, c in order. -/
theorem C8_roundabout_fifo (rb rb0 : Roundabout) (a b c : Nat)
    (h0 : rb0.agents = []) (hcap : 3 ≤ rb0.capacity)
    (hab : a ≠ b) (hac : a ≠ c) (hbc : b ≠ c) :
    ((∃ e, (rb.dequeueE).1 = .error e) ↔ rb.agents = []) ∧
    (rb0.enqueueE a).1 = none ∧
    ((rb0.enqueueE a).2.enqueueE b).1 = none ∧
    (((rb0.enqueueE a).2.enqueueE b).2.enqueueE c).1 = none ∧
    ((((rb0.enqueueE a).2.enqueueE b).2.enqueueE c).2.dequeueE).1 = .ok a ∧
    (((((rb0.enqueueE a).2.enqueueE b).2.enqueueE c).2.dequeueE).2.dequeueE).1 = .ok b ∧
    ((((((rb0.enqueueE a).2.enqueueE b).2.enqueueE c).2.dequeueE).2.dequeueE).2.dequeueE).1
      = .ok c := by
  constructor
  · rcases hq : rb.agents with _ | ⟨x, t⟩
    · simp [Roundabout.dequeueE, hq]
    · simp [Roundabout.dequeueE, hq]
  · obtain ⟨ags, cap⟩ := rb0
    simp only at h0 hcap
    subst h0
    have e1 : Roundabout.enqueueE ⟨[], cap⟩ a = (none, ⟨[a], cap⟩) := by
      simp only [Roundabout.enqueueE]
      rw [if_neg (by simp; omega)]
      simp
    have e2 : Roundabout.enqueueE ⟨[a], cap⟩ b = (none, ⟨[a, b], cap⟩) := by
      simp only [Roundabout.enqueueE]
      rw [if_neg (by simp; omega)]
      rw [if_neg (by simp [Ne.symm hab])]
      simp
    have e3 : Roundabout.enqueueE ⟨[a, b], cap⟩ c = (none, ⟨[a, b, c], cap⟩) := by
      simp only [Roundabout.enqueueE]
      rw [if_neg (by simp; omega)]
      rw [if_neg (by simp [Ne.symm hac, Ne.symm hbc])]
      simp
    simp [e1, e2, e3, Roundabout.dequeueE]

/-- Witness for C8 with agents 1, 2, 3 through the empty capacity-3 roundabout. -/
theorem C8_witness :
    ((((rbEmpty.enqueueE 1).2.enqueueE 2).2.enqueueE 3).2.dequeueE).1 = .ok 1 ∧
    (((((rbEmpty.enqueueE 1).2.enqueueE 2).2.enqueueE 3).2.dequeueE).2.dequeueE).1 = .ok 2 :=
  ⟨(C8_roundabout_fifo rbFull rbEmpty 1 2 3 rfl (by decide) (by decide) (by decide)
      (by decide)).2.2.2.2.1,
   (C8_roundabout_fifo rbFull rbEmpty 1 2 3 rfl (by decide) (by decide) (by decide)
      (by decide)).2.2.2.2.2.1⟩

/-- Counterexample to claim C2: three listed operations move the counter out of
the range [0, green + red). setDelay(2) on delay (5,5) with counter 9 (its
first branch adds the NEW green to the OLD red) leaves counter 6 with new
delay (2,2); setPhase(4) on delay (2,2) stores 4 because the reduction tests
a strict `>`; increaseCounter on delay (2,2), counter 3, pending phase 4 jumps
to the unreduced pending phase 4. -/
theorem C2_counterexample :
    (tlOld.counter < 5 + 5 ∧ (tlOld.setDelay1 2).delay = some (2, 2) ∧
      (tlOld.setDelay1 2).counter = 6 ∧ ¬ ((tlOld.setDelay1 2).counter < 2 + 2)) ∧
    (tlSmall.delay = some (2, 2) ∧ tlSmall.counter < 2 + 2 ∧
      (tlSmall.setPhase 4).toOption.map TrafficLight.counter = some 4 ∧
      ¬ ((4 : Nat) < 2 + 2)) ∧
    (tlPend.delay = some (2, 2) ∧ tlPend.counter < 2 + 2 ∧
      (tlPend.increaseCounter).toOption.map TrafficLight.counter = some 4 ∧
      ¬ ((4 : Nat) < 2 + 2)) := by
  decide

/-- Claim C2 as amended: with the delay (g, r) set and g + r not overflowing,
the joint invariant (counter and pending phase both in [0, g + r)) is
preserved by increaseCounter, and by setPhase(p) and setPhaseAfterCycle(p)
whenever p < 2(g + r) and p is not exactly g + r; setDelay is excluded (see
the counterexample). -/
theorem C2_amended_phase_invariant (tl : TrafficLight) (g r p : Nat)
    (hd : tl.delay = some (g, r)) (hW : g + r < W)
    (hc : tl.counter < g + r) (hph : tl.phase < g + r) :
    (∃ tl2, tl.increaseCounter = .ok tl2 ∧ tl2.delay = some (g, r) ∧
      tl2.counter < g + r ∧ tl2.phase < g + r) ∧
    (p < 2 * (g + r) → p ≠ g + r →
      ∃ tl2, tl.setPhase p = .ok tl2 ∧ tl2.delay = some (g, r) ∧
        tl2.counter < g + r ∧ tl2.phase < g + r) ∧
    (p < 2 * (g + r) → p ≠ g + r →
      ∃ tl2, tl.setPhaseAfterCycle p = .ok tl2 ∧ tl2.delay = some (g, r) ∧
        tl2.counter < g + r ∧ tl2.phase < g + r) := by
  have hm : m32 (g + r) = g + r := m32_eq_of_lt hW
  have hc1 : m32 (tl.counter + 1) = tl.counter + 1 := m32_eq_of_lt (by omega)
  refine ⟨?_, ?_, ?_⟩
  · simp only [TrafficLight.increaseCounter, hd, hc1, hm]
    by_cases heq : tl.counter + 1 = g + r
    · rw [if_pos heq]
      by_cases hph0 : tl.phase ≠ 0
      · rw [if_pos hph0]
        exact ⟨_, rfl, by simp [hd], by simpa using hph, by simpa using (by omega : 0 < g + r)⟩
      · rw [if_neg hph0]
        refine ⟨_, rfl, by simp [hd], by simpa using (by omega : 0 < g + r), by simpa using hph⟩
    · rw [if_neg heq]
      exact ⟨_, rfl, by simp [hd], by simpa using (by omega), by simpa using hph⟩
  · intro hp2 hpne
    simp only [TrafficLight.setPhase, hd, hm]
    refine ⟨_, rfl, by simp [hd], ?_, by simpa using (by omega : 0 < g + r)⟩
    simp only
    split_ifs with hgt
    · omega
    · omega
  · intro hp2 hpne
    simp only [TrafficLight.setPhaseAfterCycle, hd, hm]
    refine ⟨_, rfl, by simp [hd], by simpa using hc, ?_⟩
    simp only
    split_ifs with hgt
    · omega
    · omega

/-- Witness for C2 (amended) at the traffic light with delay (3,2), counter 1,
pending phase 0 and argument 7. -/
theorem C2_witness :
    (∃ tl2, tlPrio.increaseCounter = .ok tl2 ∧ tl2.delay = some (3, 2) ∧
      tl2.counter < 3 + 2 ∧ tl2.phase < 3 + 2) ∧
    (∃ tl2, tlPrio.setPhase 7 = .ok tl2 ∧ tl2.delay = some (3, 2) ∧
      tl2.counter < 3 + 2 ∧ tl2.phase < 3 + 2) ∧
    (∃ tl2, tlPrio.setPhaseAfterCycle 7 = .ok tl2 ∧ tl2.delay = some (3, 2) ∧
      tl2.counter < 3 + 2 ∧ tl2.phase < 3 + 2) := by
  have h := C2_amended_phase_invariant tlPrio 3 2 7 rfl (by decide) (by decide) (by decide)
  exact ⟨h.1, h.2.1 (by decide) (by decide), h.2.2 (by decide) (by decide)⟩

/-- Claim C3: with the delay (g, r) set, isGreen(streetId) is true exactly when
(counter < g) coincides with the street being a priority street: priority
streets see green while counter < g, non-priority streets when g <= counter. -/
theorem C3_isGreen_priority (tl : TrafficLight) (g r s : Nat)
    (hd : tl.delay = some (g, r)) :
    tl.isGreenStreet s = .ok (decide (tl.counter < g) == tl.streetPriorities.contains s) ∧
    (tl.counter < g → tl.isGreenStreet s = .ok (tl.streetPriorities.contains s)) ∧
    (g ≤ tl.counter → tl.isGreenStreet s = .ok (!tl.streetPriorities.contains s)) := by
  simp only [TrafficLight.isGreenStreet, TrafficLight.isGreen, hd]
  by_cases hcg : tl.counter < g
  · refine ⟨by simp [hcg], fun _ => by simp [hcg], fun hge => absurd hcg (by omega)⟩
  · refine ⟨by simp [hcg], fun hlt => absurd hlt hcg, fun _ => by simp [hcg]⟩

/-- Witness for C3 at the light with delay (3,2), counter 1, priority street 7. -/
theorem C3_witness :
    tlPrio.isGreenStreet 7 =
      .ok (decide (tlPrio.counter < 3) == tlPrio.streetPriorities.contains 7) :=
  (C3_isGreen_priority tlPrio 3 2 7 rfl).1

/-- Counterexample to claim C5: setPhase(4) on a light with delay (2,2) stores
counter 4, but 4 mod (2 + 2) = 0, so the stored counter is not p mod (g+r). -/
theorem C5_counterexample :
    (tlSmall.delay = some (2, 2)) ∧
    (tlSmall.setPhase 4).toOption.map TrafficLight.counter = some 4 ∧
    (4 : Nat) % (2 + 2) = 0 ∧ ¬ ((4 : Nat) = 0) := by
  decide

/-- Claim C5 as amended: setPhase(p) requires the delay (erroring otherwise),
clears the pending phase change, and stores p after at most ONE subtraction of
g + r (only when p strictly exceeds g + r); the stored counter equals
p mod (g + r) exactly on arguments with p < g + r or g + r < p < 2(g + r). -/
theorem C5_setPhase_single_subtraction (tl : TrafficLight) (g r p : Nat)
    (hd : tl.delay = some (g, r)) (hW : g + r < W) :
    (∀ tl0 : TrafficLight, tl0.delay = none →
      tl0.setPhase p = .error "TrafficLight delay has not been set.") ∧
    (∃ tl2, tl.setPhase p = .ok tl2 ∧
      tl2.counter = (if g + r < p then p - (g + r) else p) ∧ tl2.phase = 0) ∧
    (p < g + r ∨ (g + r < p ∧ p < 2 * (g + r)) →
      ∃ tl2, tl.setPhase p = .ok tl2 ∧ tl2.counter = p % (g + r)) := by
  have hm : m32 (g + r) = g + r := m32_eq_of_lt hW
  refine ⟨?_, ?_, ?_⟩
  · intro tl0 h0
    simp [TrafficLight.setPhase, h0]
  · simp only [TrafficLight.setPhase, hd, hm]
    exact ⟨_, rfl, rfl, rfl⟩
  · intro hcase
    simp only [TrafficLight.setPhase, hd, hm]
    refine ⟨_, rfl, ?_⟩
    simp only
    rcases hcase with hlt | ⟨hgt, hlt2⟩
    · rw [if_neg (by omega)]
      exact (Nat.mod_eq_of_lt hlt).symm
    · rw [if_pos hgt]
      rw [Nat.mod_eq_sub_mod (le_of_lt hgt)]
      exact (Nat.mod_eq_of_lt (by omega)).symm

/-- Witness for C5 (amended) at the light with delay (3,2) and argument 7. -/
theorem C5_witness :
    ∃ tl2, tlPrio.setPhase 7 = .ok tl2 ∧ tl2.counter = 7 % (3 + 2) :=
  (C5_setPhase_single_subtraction tlPrio 3 2 7 rfl (by decide)).2.2 (by decide)

/-! Structure of getDegreeVector and getLaplacian. -/

theorem nat_div_lt_of_lt_sq {k N : Nat} (h : k < N * N) : k / N < N := by
  have hN : 0 < N := by
    rcases Nat.eq_zero_or_pos N with h0 | h0
    · subst h0; simp at h
    · exact h0
  exact (Nat.div_lt_iff_lt_mul hN).mpr h

theorem le_sq {N : Nat} (hN : 0 < N) : N ≤ N * N := Nat.le_mul_of_pos_left N hN

theorem diag_key_inj {i j N : Nat} (h : i * N + i = j * N + j) : i = j := by
  have h2 : i * (N + 1) = j * (N + 1) := by
    calc i * (N + 1) = i * N + i := by ring
      _ = j * N + j := h
      _ = j * (N + 1) := by ring
  exact Nat.eq_of_mul_eq_mul_right (Nat.succ_pos N) h2

theorem linear_key_div {i j N : Nat} (hj : j < N) : (i * N + j) / N = i := by
  have hN : 0 < N := by omega
  have h1 : i * N + j = j + N * i := by ring
  rw [h1, Nat.add_mul_div_left _ _ hN, Nat.div_eq_of_lt hj, Nat.zero_add]

theorem linear_key_mod {i j N : Nat} (hj : j < N) : (i * N + j) % N = j := by
  have h1 : i * N + j = j + N * i := by ring
  rw [h1, Nat.add_mul_mod_self_left, Nat.mod_eq_of_lt hj]

theorem rowCount_cons (c r k : Nat) (v : α) (t : List (Nat × α)) :
    rowCount c r ((k, v) :: t) = (if k / c = r then 1 else 0) + rowCount c r t := by
  by_cases h : k / c = r
  · simp [rowCount, rowEntries, h]
    omega
  · simp [rowCount, rowEntries, h]

/-- Step of the degree loop: a read of the current count and an overwrite. -/
theorem degBody_step (N k : Nat) (v : α) (acc : SpMat Int)
    (hr : acc.rows = N) (hc : acc.cols = 1) (hW : N * N < W) (hk : k < N * N) :
    SpMat.degBody N acc (k, v) =
      .ok { acc with matrix := massign (k / N) ((mfind (k / N) acc.matrix).getD 0 + 1) acc.matrix } := by
  have hN : 0 < N := by
    rcases Nat.eq_zero_or_pos N with h0 | h0
    · subst h0; simp at hk
    · exact h0
  have hdiv : k / N < N := nat_div_lt_of_lt_sq hk
  have hNW : N < W := lt_of_le_of_lt (le_sq hN) hW
  have hdivW : k / N < W := lt_trans hdiv hNW
  have hidx : k / N * acc.cols + 0 = k / N := by rw [hc]; ring
  have hat : acc.atCell (k / N) 0 = .ok ((mfind (k / N) acc.matrix).getD 0) := by
    rw [SpMat.atCell, if_neg (by rw [hr, hc]; omega), hidx, m32_eq_of_lt hdivW]
  have hub : acc.ub = N - 1 := by
    rw [SpMat.ub, hr, hc, Nat.mul_one]
    exact m32_pred hN hNW
  simp only [SpMat.degBody, hat]
  rw [SpMat.assignAt, SpMat.assignLin, hidx, m32_eq_of_lt hdivW, hub, if_neg (by omega)]

/-- The degree loop counts the stored entries of each row. -/
theorem degFold (N : Nat) (hW : N * N < W) (l : List (Nat × α)) :
    (∀ p ∈ l, p.1 < N * N) →
    ∀ (acc : SpMat Int) (f : Nat → Nat), acc.rows = N → acc.cols = 1 →
    (∀ i, i < N → (mfind i acc.matrix).getD 0 = ((f i : Nat) : Int)) →
    ∃ acc2, foldE (SpMat.degBody N) l acc = .ok acc2 ∧ acc2.rows = N ∧ acc2.cols = 1 ∧
      ∀ i, i < N → (mfind i acc2.matrix).getD 0 = ((f i + rowCount N i l : Nat) : Int) := by
  induction l with
  | nil =>
    intro _ acc f hr hc hf
    refine ⟨acc, rfl, hr, hc, fun i hi => ?_⟩
    have h0 : rowCount N i ([] : List (Nat × α)) = 0 := rfl
    rw [h0, Nat.add_zero]
    exact hf i hi
  | cons p t ih =>
    intro hl acc f hr hc hf
    obtain ⟨k, v⟩ := p
    have hk : k < N * N := hl (k, v) (List.mem_cons_self _ _)
    have hdiv : k / N < N := nat_div_lt_of_lt_sq hk
    have hstep := degBody_step N k v acc hr hc hW hk
    rw [hf (k / N) hdiv] at hstep
    rw [foldE_cons, hstep]
    obtain ⟨acc2, hfold, h2r, h2c, h2f⟩ :=
      ih (fun q hq => hl q (List.mem_cons_of_mem _ hq))
        { acc with matrix := massign (k / N) (((f (k / N) : Nat) : Int) + 1) acc.matrix }
        (fun i => if i = k / N then f i + 1 else f i) hr hc
        (by
          intro i hi
          show (mfind i (massign (k / N) (((f (k / N) : Nat) : Int) + 1) acc.matrix)).getD 0 =
            ((if i = k / N then f i + 1 else f i : Nat) : Int)
          rw [mfind_massign]
          by_cases hik : i = k / N
          · subst hik
            rw [if_pos rfl, if_pos rfl]
            simp only [Option.getD_some]
            push_cast
            ring
          · rw [if_neg hik, if_neg hik]
            exact hf i hi)
    have h2f2 : ∀ i, i < N → (mfind i acc2.matrix).getD 0 =
        (((if i = k / N then f i + 1 else f i) + rowCount N i t : Nat) : Int) := h2f
    refine ⟨acc2, hfold, h2r, h2c, fun i hi => ?_⟩
    rw [h2f2 i hi]
    have harith : (if i = k / N then f i + 1 else f i) + rowCount N i t
        = f i + rowCount N i ((k, v) :: t) := by
      rw [rowCount_cons]
      by_cases hik : i = k / N
      · rw [if_pos hik, if_pos hik.symm]
        omega
      · rw [if_neg hik, if_neg (fun e => hik e.symm)]
        omega
    rw [harith]

/-- Step of the first Laplacian loop: overwrite the re-encoded key with -1. -/
theorem lapBody_step (N k : Nat) (v : α) (acc : SpMat Int)
    (hr : acc.rows = N) (hc : acc.cols = N) (hW : N * N < W) (hk : k < N * N) :
    SpMat.lapBody N acc (k, v) = .ok { acc with matrix := massign k (-1) acc.matrix } := by
  have h1 : 1 ≤ N * N := by omega
  have hkW : k < W := lt_trans hk hW
  have hrecode : k / N * acc.cols + k % N = k := by
    rw [hc, Nat.mul_comm]
    exact Nat.div_add_mod k N
  have hub : acc.ub = N * N - 1 := by
    rw [SpMat.ub, hr, hc]
    exact m32_pred h1 hW
  rw [SpMat.lapBody, SpMat.assignAt, SpMat.assignLin, hrecode, m32_eq_of_lt hkW, hub,
    if_neg (by omega)]

/-- The first Laplacian loop stores -1 exactly at the keys of the matrix. -/
theorem lapFold (N : Nat) (hW : N * N < W) (l : List (Nat × α)) :
    (∀ p ∈ l, p.1 < N * N) →
    ∀ acc : SpMat Int, acc.rows = N → acc.cols = N →
    ∃ acc2, foldE (SpMat.lapBody N) l acc = .ok acc2 ∧ acc2.rows = N ∧ acc2.cols = N ∧
      ∀ x, mfind x acc2.matrix =
        if x ∈ l.map Prod.fst then some (-1) else mfind x acc.matrix := by
  induction l with
  | nil =>
    intro _ acc hr hc
    exact ⟨acc, rfl, hr, hc, fun x => by simp⟩
  | cons p t ih =>
    intro hl acc hr hc
    obtain ⟨k, v⟩ := p
    have hk : k < N * N := hl (k, v) (List.mem_cons_self _ _)
    rw [foldE_cons, lapBody_step N k v acc hr hc hW hk]
    obtain ⟨acc2, hfold, h2r, h2c, h2f⟩ :=
      ih (fun q hq => hl q (List.mem_cons_of_mem _ hq))
        { acc with matrix := massign k (-1) acc.matrix } hr hc
    refine ⟨acc2, hfold, h2r, h2c, fun x => ?_⟩
    rw [h2f x]
    by_cases hxt : x ∈ t.map Prod.fst
    · simp [hxt]
    · by_cases hxk : x = k
      · subst hxk
        simp [hxt, mfind_massign]
      · have hmem : ¬ (x ∈ ((k, v) :: t).map Prod.fst) := by
          simp only [List.map_cons, List.mem_cons]
          rintro (h | h)
          · exact hxk h
          · exact hxt h
        rw [if_neg hxt, mfind_massign, if_neg hxk, if_neg hmem]

/-- Step of the diagonal loop: read the degree and overwrite cell (i, i). -/
theorem diagBody_step (N i : Nat) (deg acc : SpMat Int)
    (hdr : deg.rows = N) (hdc : deg.cols = 1) (hr : acc.rows = N) (hc : acc.cols = N)
    (hW : N * N < W) (hi : i < N) :
    SpMat.diagBody deg acc i =
      .ok { acc with matrix := massign (i * N + i) ((mfind i deg.matrix).getD 0) acc.matrix } := by
  have hN : 0 < N := by omega
  have hNW : N < W := lt_of_le_of_lt (le_sq hN) hW
  have hiW : i < W := lt_trans hi hNW
  have hkey : i * N + i < N * N := SpMat.index_lt hi hi
  have hkeyW : i * N + i < W := lt_trans hkey hW
  have hidxdeg : i * deg.cols + 0 = i := by rw [hdc]; ring
  have hat : deg.atCell i 0 = .ok ((mfind i deg.matrix).getD 0) := by
    rw [SpMat.atCell, if_neg (by rw [hdr, hdc]; omega), hidxdeg, m32_eq_of_lt hiW]
  have hub : acc.ub = N * N - 1 := by
    rw [SpMat.ub, hr, hc]
    exact m32_pred (by omega) hW
  have hidx : i * acc.cols + i = i * N + i := by rw [hc]
  simp only [SpMat.diagBody, hat]
  rw [SpMat.assignAt, SpMat.assignLin, hidx, m32_eq_of_lt hkeyW, hub, if_neg (by omega)]

/-- The diagonal loop overwrites each diagonal cell with its degree and leaves
every other key untouched. -/
theorem diagFold (N : Nat) (hW : N * N < W) (deg : SpMat Int)
    (hdr : deg.rows = N) (hdc : deg.cols = 1) (is : List Nat) :
    (∀ i ∈ is, i < N) → is.Nodup →
    ∀ acc : SpMat Int, acc.rows = N → acc.cols = N →
    ∃ acc2, foldE (SpMat.diagBody deg) is acc = .ok acc2 ∧ acc2.rows = N ∧ acc2.cols = N ∧
      (∀ i ∈ is, mfind (i * N + i) acc2.matrix = some ((mfind i deg.matrix).getD 0)) ∧
      (∀ x, (∀ i ∈ is, x ≠ i * N + i) → mfind x acc2.matrix = mfind x acc.matrix) := by
  induction is with
  | nil =>
    intro _ _ acc hr hc
    exact ⟨acc, rfl, hr, hc, by simp, fun x _ => rfl⟩
  | cons i0 t ih =>
    intro his hnd acc hr hc
    have hi0 : i0 < N := his i0 (List.mem_cons_self _ _)
    rw [foldE_cons, diagBody_step N i0 deg acc hdr hdc hr hc hW hi0]
    obtain ⟨acc2, hfold, h2r, h2c, hdiag, hoth⟩ :=
      ih (fun i hi => his i (List.mem_cons_of_mem _ hi)) (List.Nodup.of_cons hnd)
        { acc with matrix := massign (i0 * N + i0) ((mfind i0 deg.matrix).getD 0) acc.matrix }
        hr hc
    have hi0t : i0 ∉ t := (List.nodup_cons.mp hnd).1
    refine ⟨acc2, hfold, h2r, h2c, ?_, ?_⟩
    · intro i hi
      rcases List.mem_cons.mp hi with rfl | hit
      · rw [hoth _ ?_]
        · rw [mfind_massign, if_pos rfl]
        · intro i2 hi2 heq
          have : i = i2 := diag_key_inj heq
          subst this
          exact hi0t hi2
      · exact hdiag i hit
    · intro x hx
      rw [hoth x (fun i hi => hx i (List.mem_cons_of_mem _ hi))]
      rw [mfind_massign, if_neg (hx i0 (List.mem_cons_self _ _))]

/-- Claim C6 as amended: for every square matrix whose stored keys are in
range, getDegreeVector counts the stored entries per row; in getLaplacian the
diagonal cell (i, i) is overwritten with exactly that row count (the stored
diagonal value of A is NOT subtracted), and the off-diagonal cell (i, j) is -1
when A stores an entry at (i, j) — regardless of the entry's value — and 0
otherwise. -/
theorem C6_laplacian_structure (m : SpMat α) (N : Nat)
    (hr : m.rows = N) (hc : m.cols = N) (hW : N * N < W)
    (hwf : ∀ p ∈ m.matrix, p.1 < N * N) :
    ∃ D L, m.getDegreeVector = .ok D ∧ m.getLaplacian = .ok L ∧
      (∀ i, i < N → D.atCell i 0 = .ok (rowCount N i m.matrix : Int)) ∧
      (∀ i, i < N → L.atCell i i = .ok (rowCount N i m.matrix : Int)) ∧
      (∀ i j, i < N → j < N → i ≠ j →
        L.atCell i j = .ok (if mhas (i * N + j) m.matrix then (-1 : Int) else 0)) := by
  have hsq : ¬ (m.rows ≠ m.cols) := by rw [hr, hc]; simp
  obtain ⟨D, hDfold, hDr, hDc, hDf⟩ :=
    degFold N hW m.matrix hwf (SpMat.ofDims N 1) (fun _ => 0) rfl rfl
      (by intro i hi; simp [SpMat.ofDims, mfind])
  have hD : m.getDegreeVector = .ok D := by
    rw [SpMat.getDegreeVector, if_neg hsq, hc, hr]
    exact hDfold
  have hDval : ∀ i, i < N → (mfind i D.matrix).getD 0 = (rowCount N i m.matrix : Int) := by
    intro i hi
    simpa using hDf i hi
  have hatD : ∀ i, i < N → D.atCell i 0 = .ok (rowCount N i m.matrix : Int) := by
    intro i hi
    have hN : 0 < N := by omega
    have hiW : i < W := lt_trans hi (lt_of_le_of_lt (le_sq hN) hW)
    have hidx : i * D.cols + 0 = i := by rw [hDc]; ring
    rw [SpMat.atCell, if_neg (by rw [hDr, hDc]; omega), hidx, m32_eq_of_lt hiW,
      hDval i hi]
  obtain ⟨L0, hL0fold, hL0r, hL0c, hL0f⟩ :=
    lapFold N hW m.matrix hwf (SpMat.ofDims N N) rfl rfl
  obtain ⟨L, hLfold, hLr, hLc, hLdiag, hLoth⟩ :=
    diagFold N hW D hDr hDc (List.range N) (fun i hi => List.mem_range.mp hi)
      (List.nodup_range N) L0 hL0r hL0c
  have hL : m.getLaplacian = .ok L := by
    rw [SpMat.getLaplacian, if_neg hsq, hc, hr]
    rw [hL0fold, hD]
    exact hLfold
  refine ⟨D, L, hD, hL, hatD, ?_, ?_⟩
  · intro i hi
    have hN : 0 < N := by omega
    have hkeyW : i * N + i < W := lt_trans (SpMat.index_lt hi hi) hW
    have hidx : i * L.cols + i = i * N + i := by rw [hLc]
    rw [SpMat.atCell, if_neg (by rw [hLr, hLc]; omega), hidx, m32_eq_of_lt hkeyW]
    rw [hLdiag i (List.mem_range.mpr hi), hDval i hi]
    rfl
  · intro i j hi hj hij
    have hkey : i * N + j < N * N := SpMat.index_lt hi hj
    have hkeyW : i * N + j < W := lt_trans hkey hW
    have hidx : i * L.cols + j = i * N + j := by rw [hLc]
    have hnd : ∀ i2 ∈ List.range N, i * N + j ≠ i2 * N + i2 := by
      intro i2 hi2 heq
      have hdiv : i = i2 := by
        have h1 := linear_key_div (N := N) (i := i) hj
        have h2 := linear_key_div (N := N) (i := i2) (List.mem_range.mp hi2)
        rw [heq] at h1
        rw [h1] at h2
        exact h2
      have hmod : j = i2 := by
        have h1 := linear_key_mod (N := N) (i := i) hj
        have h2 := linear_key_mod (N := N) (i := i2) (List.mem_range.mp hi2)
        rw [heq] at h1
        rw [h1] at h2
        exact h2
      exact hij (hdiv.trans hmod.symm)
    rw [SpMat.atCell, if_neg (by rw [hLr, hLc]; omega), hidx, m32_eq_of_lt hkeyW]
    rw [hLoth _ hnd, hL0f]
    by_cases hmem : (i * N + j) ∈ m.matrix.map Prod.fst
    · rw [if_pos hmem]
      have hmh : mhas (i * N + j) m.matrix = true := (mhas_iff_mem_keys _ _).mpr hmem
      rw [if_pos hmh]
      rfl
    · rw [if_neg hmem]
      have hmh : ¬ (mhas (i * N + j) m.matrix = true) := by
        rw [mhas_iff_mem_keys]
        exact hmem
      rw [if_neg hmh]
      simp [SpMat.ofDims, mfind]

/-- Counterexample to claim C6 at the 2x2 matrix with A(0,0) = 2, A(0,1) = 5:
the code stores L(0,1) = -1 (not -A(0,1) = -5) and L(0,0) = 2, the row count,
(not degree - A(0,0) = 0). -/
theorem C6_counterexample :
    ((exA.getLaplacian).toOption.bind (fun L => (L.atCell 0 1).toOption) = some (-1) ∧
      (-1 : Int) ≠ -5 ∧ (exA.atCell 0 1).toOption = some 5) ∧
    ((exA.getLaplacian).toOption.bind (fun L => (L.atCell 0 0).toOption) = some 2 ∧
      (exA.getDegreeVector).toOption.bind (fun D => (D.atCell 0 0).toOption) = some 2 ∧
      (exA.atCell 0 0).toOption = some 2 ∧ (2 : Int) ≠ 2 - 2) := by
  decide

/-- Witness for C6 (amended) at the concrete matrix exA of dimension 2. -/
theorem C6_witness :
    ∃ D L, exA.getDegreeVector = .ok D ∧ exA.getLaplacian = .ok L ∧
      (∀ i, i < 2 → D.atCell i 0 = .ok (rowCount 2 i exA.matrix : Int)) ∧
      (∀ i, i < 2 → L.atCell i i = .ok (rowCount 2 i exA.matrix : Int)) ∧
      (∀ i j, i < 2 → j < 2 → i ≠ j →
        L.atCell i j = .ok (if mhas (i * 2 + j) exA.matrix then (-1 : Int) else 0)) :=
  C6_laplacian_structure exA 2 rfl rfl (by decide) (by decide)

/-! Structure of getNormRows. -/

theorem reshape2_empty (c r c2 : Nat) :
    SpMat.reshape2 (SpMat.ofDims 1 c) r c2 = .ok (⟨[], r, c2⟩ : SpMat α) := rfl

theorem mhas_append (k : Nat) (l1 l2 : List (Nat × α)) :
    mhas k (l1 ++ l2) = (mhas k l1 || mhas k l2) := by
  rw [mhas, mfind_append]
  rcases h : mfind k l1 with _ | w
  · simp [mhas, h]
  · simp [mhas, h]

theorem rowEntries_nil (c r : Nat) : rowEntries c r ([] : List (Nat × α)) = [] := rfl

theorem rowEntries_cons_pos {c r k : Nat} (h : k / c = r) (v : α) (t : List (Nat × α)) :
    rowEntries c r ((k, v) :: t) = (k, v) :: rowEntries c r t := by
  simp [rowEntries, h]

theorem rowEntries_cons_neg {c r k : Nat} (h : ¬ k / c = r) (v : α) (t : List (Nat × α)) :
    rowEntries c r ((k, v) :: t) = rowEntries c r t := by
  simp [rowEntries, h]

theorem rowEntries_append (c r : Nat) (l1 l2 : List (Nat × α)) :
    rowEntries c r (l1 ++ l2) = rowEntries c r l1 ++ rowEntries c r l2 := by
  simp [rowEntries, List.filter_append]

theorem rowEntries_keys {c r : Nat} {l : List (Nat × α)} {p : Nat × α}
    (hp : p ∈ rowEntries c r l) : p.1 / c = r := by
  have h2 : p ∈ l.filter (fun q => decide (q.1 / c = r)) := hp
  have := List.of_mem_filter h2
  simpa using this

theorem rowEntries_mem {c r : Nat} {l : List (Nat × α)} {p : Nat × α}
    (hp : p ∈ rowEntries c r l) : p ∈ l := by
  have h2 : p ∈ l.filter (fun q => decide (q.1 / c = r)) := hp
  exact List.mem_of_mem_filter h2

theorem rowEntries_sublist_keys (c r : Nat) (l : List (Nat × α)) :
    ((rowEntries c r l).map Prod.fst).Sublist (l.map Prod.fst) :=
  (List.filter_sublist l).map Prod.fst

/-- The getRow copy loop (keepIndex = true) appends exactly the entries of the
selected row, in their original order. -/
theorem rowFold (C index : Nat) (l : List (Nat × α)) :
    (l.map Prod.fst).Nodup →
    ∀ acc : SpMat α,
    (∀ p ∈ l, p.1 / C = index → p.1 ≤ acc.ub) →
    (∀ p ∈ l, p.1 / C = index → mhas p.1 acc.matrix = false) →
    foldE (SpMat.getRowBody C index true) l acc =
      .ok ⟨acc.matrix ++ rowEntries C index l, acc.rows, acc.cols⟩ := by
  induction l with
  | nil =>
    intro _ acc _ _
    rw [foldE_nil, rowEntries_nil, List.append_nil]
  | cons p t ih =>
    intro hnd acc hub hfresh
    obtain ⟨k, v⟩ := p
    rw [List.map_cons] at hnd
    obtain ⟨hknott, hndt⟩ := List.nodup_cons.mp hnd
    rw [foldE_cons]
    by_cases hrow : k / C = index
    · have hk_ub : k ≤ acc.ub := hub (k, v) (List.mem_cons_self _ _) hrow
      have hk_fresh : mhas k acc.matrix = false := hfresh (k, v) (List.mem_cons_self _ _) hrow
      have hbody : SpMat.getRowBody C index true acc (k, v) =
          .ok { acc with matrix := acc.matrix ++ [(k, v)] } := by
        rw [SpMat.getRowBody, if_pos hrow]
        show acc.insertLin k v = _
        rw [SpMat.insertLin, if_neg (by omega), mfind_memplace_of_not_mhas hk_fresh]
      rw [hbody]
      have ih2 := ih hndt { acc with matrix := acc.matrix ++ [(k, v)] }
        (fun q hq hqrow => hub q (List.mem_cons_of_mem _ hq) hqrow)
        (by
          intro q hq hqrow
          have hold : mhas q.1 acc.matrix = false :=
            hfresh q (List.mem_cons_of_mem _ hq) hqrow
          have hqk : q.1 ≠ k := fun he => hknott (he ▸ List.mem_map.mpr ⟨q, hq, rfl⟩)
          show mhas q.1 (acc.matrix ++ [(k, v)]) = false
          rw [mhas_append, hold]
          simp [mhas, mfind, Ne.symm hqk])
      show foldE (SpMat.getRowBody C index true) t { acc with matrix := acc.matrix ++ [(k, v)] } = _
      rw [ih2, rowEntries_cons_pos hrow v t]
      simp [List.append_assoc]
    · have hbody : SpMat.getRowBody C index true acc (k, v) = .ok acc := by
        rw [SpMat.getRowBody, if_neg hrow]
      rw [hbody]
      show foldE (SpMat.getRowBody C index true) t acc = _
      rw [ih hndt acc (fun q hq hqrow => hub q (List.mem_cons_of_mem _ hq) hqrow)
        (fun q hq hqrow => hfresh q (List.mem_cons_of_mem _ hq) hqrow)]
      rw [rowEntries_cons_neg hrow]

/-- getRow with keepIndex = true returns a matrix of the original dimensions
holding exactly the entries of the selected row. -/
theorem getRow_keep (m : SpMat α) (index : Nat) (hind : index < m.rows)
    (hW : m.rows * m.cols < W) (hwf : ∀ p ∈ m.matrix, p.1 < m.rows * m.cols)
    (hnd : (m.matrix.map Prod.fst).Nodup) :
    m.getRow index true = .ok ⟨rowEntries m.cols index m.matrix, m.rows, m.cols⟩ := by
  rw [SpMat.getRow, if_neg (by omega)]
  have hrf := rowFold m.cols index m.matrix hnd (⟨[], m.rows, m.cols⟩ : SpMat α)
    (by
      intro p hp _
      have hkey := hwf p hp
      have h1 : 1 ≤ m.rows * m.cols := by omega
      show p.1 ≤ (⟨[], m.rows, m.cols⟩ : SpMat α).ub
      rw [show (⟨[], m.rows, m.cols⟩ : SpMat α).ub = m.rows * m.cols - 1 from
        SpMat.ub_eq h1 hW]
      omega)
    (fun p _ _ => rfl)
  show foldE (SpMat.getRowBody m.cols index true) m.matrix (⟨[], m.rows, m.cols⟩ : SpMat α) = _
  rw [hrf]
  simp

/-- Inserting a list of fresh distinct keys appends the divided entries in order. -/
theorem normInsFold (s : ℚ) (l : List (Nat × ℚ)) :
    (l.map Prod.fst).Nodup →
    ∀ acc : SpMat ℚ,
    (∀ p ∈ l, p.1 ≤ acc.ub) →
    (∀ p ∈ l, mhas p.1 acc.matrix = false) →
    foldE (SpMat.normInsBody s) l acc =
      .ok ⟨acc.matrix ++ l.map (fun p => (p.1, p.2 / s)), acc.rows, acc.cols⟩ := by
  induction l with
  | nil =>
    intro _ acc _ _
    rw [foldE_nil, List.map_nil, List.append_nil]
  | cons p t ih =>
    intro hnd acc hub hfresh
    obtain ⟨k, v⟩ := p
    rw [List.map_cons] at hnd
    obtain ⟨hknott, hndt⟩ := List.nodup_cons.mp hnd
    have hbody : SpMat.normInsBody s acc (k, v) =
        .ok { acc with matrix := acc.matrix ++ [(k, v / s)] } := by
      show acc.insertLin k (v / s) = _
      rw [SpMat.insertLin, if_neg (by have := hub (k, v) (List.mem_cons_self _ _); omega),
        mfind_memplace_of_not_mhas (hfresh (k, v) (List.mem_cons_self _ _))]
    rw [foldE_cons, hbody]
    show foldE (SpMat.normInsBody s) t { acc with matrix := acc.matrix ++ [(k, v / s)] } = _
    rw [ih hndt { acc with matrix := acc.matrix ++ [(k, v / s)] }
      (fun q hq => hub q (List.mem_cons_of_mem _ hq))
      (by
        intro q hq
        have hold := hfresh q (List.mem_cons_of_mem _ hq)
        have hqk : q.1 ≠ k := fun he => hknott (he ▸ List.mem_map.mpr ⟨q, hq, rfl⟩)
        show mhas q.1 (acc.matrix ++ [(k, v / s)]) = false
        rw [mhas_append, hold]
        simp [mhas, mfind, Ne.symm hqk])]
    simp [List.append_assoc]

theorem foldl_abs_sum (l : List (Nat × ℚ)) (a : ℚ) :
    l.foldl (fun t p => t + |p.2|) a = a + (l.map (fun p => |p.2|)).sum := by
  induction l generalizing a with
  | nil => simp
  | cons p t ih =>
    simp only [List.foldl_cons, List.map_cons, List.sum_cons, ih]
    ring

theorem eps_pos : (0 : ℚ) < SpMat.eps := by norm_num [SpMat.eps]

theorem rowL1_nonneg (c r : Nat) (l : List (Nat × ℚ)) : 0 ≤ rowL1 c r l := by
  rw [rowL1]
  apply List.sum_nonneg
  intro x hx
  obtain ⟨p, _, rfl⟩ := List.mem_map.mp hx
  exact abs_nonneg _

theorem sum_map_abs_div (l : List (Nat × ℚ)) (d : ℚ) (hd : 0 < d) :
    ((l.map (fun p => (p.1, p.2 / d))).map (fun p => |p.2|)).sum
      = (l.map (fun p => |p.2|)).sum / d := by
  induction l with
  | nil => simp
  | cons p t ih =>
    simp only [List.map_cons, List.sum_cons, ih]
    rw [add_div]
    congr 1
    rw [abs_div, abs_of_pos hd]

/-- The outer getNormRows loop: each processed row r holds the original entries
divided by that row's divisor; other rows keep the accumulator's entries. -/
theorem normRowsFold (m : SpMat ℚ) (hW : m.rows * m.cols < W)
    (hwf : ∀ p ∈ m.matrix, p.1 < m.rows * m.cols)
    (hnd : (m.matrix.map Prod.fst).Nodup) (is : List Nat) :
    (∀ i ∈ is, i < m.rows) → is.Nodup →
    ∀ acc : SpMat ℚ, acc.rows = m.rows → acc.cols = m.cols →
    (∀ p ∈ acc.matrix, ¬ p.1 / m.cols ∈ is) →
    ∃ acc2, foldE (SpMat.normRowBody m) is acc = .ok acc2 ∧
      acc2.rows = m.rows ∧ acc2.cols = m.cols ∧
      (∀ r, r ∈ is → rowEntries m.cols r acc2.matrix =
        (rowEntries m.cols r m.matrix).map (fun p => (p.1, p.2 / rowDiv m r))) ∧
      (∀ r, ¬ r ∈ is → rowEntries m.cols r acc2.matrix = rowEntries m.cols r acc.matrix) := by
  induction is with
  | nil =>
    intro _ _ acc hr hc _
    exact ⟨acc, rfl, hr, hc, by simp, fun r _ => rfl⟩
  | cons i0 rest ih =>
    intro his hndis acc hr hc haccrows
    have hi0 : i0 < m.rows := his i0 (List.mem_cons_self _ _)
    obtain ⟨hi0rest, hndrest⟩ := List.nodup_cons.mp hndis
    have hrowEq := getRow_keep m i0 hi0 hW hwf hnd
    have hdiveq : SpMat.normDivisor (rowEntries m.cols i0 m.matrix) = rowDiv m i0 := by
      rw [SpMat.normDivisor, rowDiv, rowL1]
      rw [foldl_abs_sum, zero_add]
    have hndrow : ((rowEntries m.cols i0 m.matrix).map Prod.fst).Nodup :=
      List.Nodup.sublist (rowEntries_sublist_keys m.cols i0 m.matrix) hnd
    have hbody : SpMat.normRowBody m acc i0 =
        .ok ⟨acc.matrix ++ (rowEntries m.cols i0 m.matrix).map
          (fun p => (p.1, p.2 / rowDiv m i0)), acc.rows, acc.cols⟩ := by
      rw [SpMat.normRowBody, hrowEq]
      show foldE (SpMat.normInsBody (SpMat.normDivisor (rowEntries m.cols i0 m.matrix)))
        (rowEntries m.cols i0 m.matrix) acc = _
      rw [hdiveq]
      exact normInsFold (rowDiv m i0) (rowEntries m.cols i0 m.matrix) hndrow acc
        (by
          intro p hp
          have hkey := hwf p (rowEntries_mem hp)
          have hub2 : acc.ub = m.rows * m.cols - 1 := by
            rw [SpMat.ub, hr, hc]
            exact m32_pred (by omega) hW
          omega)
        (by
          intro p hp
          have hrow := rowEntries_keys hp
          rcases hb : mhas p.1 acc.matrix with _ | _
          · rfl
          · exfalso
            obtain ⟨q, hq, hqk⟩ := List.mem_map.mp ((mhas_iff_mem_keys _ _).mp hb)
            apply haccrows q hq
            rw [hqk, hrow]
            exact List.mem_cons_self _ _)
    rw [foldE_cons, hbody]
    obtain ⟨acc2, hfold, h2r, h2c, hin, hout⟩ :=
      ih (fun i hi => his i (List.mem_cons_of_mem _ hi)) hndrest
        (⟨acc.matrix ++ (rowEntries m.cols i0 m.matrix).map
          (fun p => (p.1, p.2 / rowDiv m i0)), acc.rows, acc.cols⟩ : SpMat ℚ) hr hc
        (by
          intro p hp
          rcases List.mem_append.mp hp with hpa | hpb
          · intro hmem
            exact haccrows p hpa (List.mem_cons_of_mem _ hmem)
          · obtain ⟨q, hq, rfl⟩ := List.mem_map.mp hpb
            have hqrow : q.1 / m.cols = i0 := rowEntries_keys hq
            intro hmem
            rw [show (q.1, q.2 / rowDiv m i0).1 = q.1 from rfl, hqrow] at hmem
            exact hi0rest hmem)
    have haccEmpty : rowEntries m.cols i0 acc.matrix = [] := by
      rw [rowEntries]
      apply List.filter_eq_nil_iff.mpr
      intro p hp
      simp only [decide_eq_true_eq]
      intro he
      exact haccrows p hp (he ▸ List.mem_cons_self _ _)
    have hmappedFull : rowEntries m.cols i0 ((rowEntries m.cols i0 m.matrix).map
        (fun p => (p.1, p.2 / rowDiv m i0))) =
        (rowEntries m.cols i0 m.matrix).map (fun p => (p.1, p.2 / rowDiv m i0)) := by
      rw [rowEntries]
      apply List.filter_eq_self.mpr
      intro p hp
      obtain ⟨q, hq, rfl⟩ := List.mem_map.mp hp
      simp only [decide_eq_true_eq]
      exact rowEntries_keys hq
    refine ⟨acc2, hfold, h2r, h2c, ?_, ?_⟩
    · intro r hrm
      rcases List.mem_cons.mp hrm with rfl | hrrest
      · rw [hout r hi0rest]
        show rowEntries m.cols r (acc.matrix ++ (rowEntries m.cols r m.matrix).map
          (fun p => (p.1, p.2 / rowDiv m r))) = _
        rw [rowEntries_append, haccEmpty, hmappedFull, List.nil_append]
      · exact hin r hrrest
    · intro r hrnot
      have hrrest : ¬ r ∈ rest := fun h => hrnot (List.mem_cons_of_mem _ h)
      have hri0 : r ≠ i0 := fun h => hrnot (h ▸ List.mem_cons_self _ _)
      rw [hout r hrrest]
      show rowEntries m.cols r (acc.matrix ++ (rowEntries m.cols i0 m.matrix).map
        (fun p => (p.1, p.2 / rowDiv m i0))) = _
      rw [rowEntries_append]
      have hmapped0 : rowEntries m.cols r ((rowEntries m.cols i0 m.matrix).map
          (fun p => (p.1, p.2 / rowDiv m i0))) = [] := by
        rw [rowEntries]
        apply List.filter_eq_nil_iff.mpr
        intro p hp
        obtain ⟨q, hq, rfl⟩ := List.mem_map.mp hp
        simp only [decide_eq_true_eq]
        rw [show (q.1, q.2 / rowDiv m i0).1 = q.1 from rfl, rowEntries_keys hq]
        exact fun h => hri0 h.symm
      rw [hmapped0, List.append_nil]

/-- Claim C7 as amended: getNormRows divides each entry of a row by the row's
L1 norm, using divisor 1 when that norm is below machine epsilon; consequently
the L1 sum of each result row is 1 when the original row's norm is at least
machine epsilon, and is the unchanged original norm (in particular 0 for an
empty row, and NOT 1 for a non-empty row of stored zeros) when the norm is
below machine epsilon. Numeric values are modelled as exact rationals. -/
theorem C7_norm_rows (m : SpMat ℚ) (hW : m.rows * m.cols < W)
    (hwf : ∀ p ∈ m.matrix, p.1 < m.rows * m.cols)
    (hnd : (m.matrix.map Prod.fst).Nodup) :
    ∃ nr, m.getNormRows = .ok nr ∧
      ∀ r, r < m.rows →
        rowEntries m.cols r nr.matrix =
          (rowEntries m.cols r m.matrix).map (fun p => (p.1, p.2 / rowDiv m r)) ∧
        rowL1 m.cols r nr.matrix =
          (if rowL1 m.cols r m.matrix < SpMat.eps then rowL1 m.cols r m.matrix else 1) := by
  obtain ⟨nr, hfold, hnrr, hnrc, hin, _⟩ :=
    normRowsFold m hW hwf hnd (List.range m.rows)
      (fun i hi => List.mem_range.mp hi) (List.nodup_range m.rows)
      (SpMat.ofDims m.rows m.cols) rfl rfl (by intro p hp; simp [SpMat.ofDims] at hp)
  refine ⟨nr, ?_, ?_⟩
  · rw [SpMat.getNormRows]
    exact hfold
  · intro r hr
    have hentries := hin r (List.mem_range.mpr hr)
    refine ⟨hentries, ?_⟩
    have hsum : rowL1 m.cols r nr.matrix =
        rowL1 m.cols r m.matrix / rowDiv m r := by
      rw [rowL1, hentries]
      have hd : 0 < rowDiv m r := by
        rw [rowDiv]
        by_cases hlt : rowL1 m.cols r m.matrix < SpMat.eps
        · rw [if_pos hlt]
          norm_num
        · rw [if_neg hlt]
          have := rowL1_nonneg m.cols r m.matrix
          have he := eps_pos
          push_neg at hlt
          linarith
      rw [sum_map_abs_div _ _ hd, rowL1]
    rw [hsum, rowDiv]
    by_cases hlt : rowL1 m.cols r m.matrix < SpMat.eps
    · rw [if_pos hlt, if_pos hlt, div_one]
    · rw [if_neg hlt, if_neg hlt]
      have hne : rowL1 m.cols r m.matrix ≠ 0 := by
        push_neg at hlt
        have := eps_pos
        intro h0
        rw [h0] at hlt
        linarith
      exact div_self hne

/-- Counterexample to claim C7: the 1x1 matrix whose single stored entry is 0
has a non-empty row, yet the L1 sum of that row of the result is 0, not 1 (the
norm 0 is below machine epsilon, so the entry passes through unchanged). -/
theorem C7_counterexample :
    (∃ nr, exZeroRow.getNormRows = .ok nr ∧ rowL1 exZeroRow.cols 0 nr.matrix = 0) ∧
    rowEntries exZeroRow.cols 0 exZeroRow.matrix ≠ [] ∧ (0 : ℚ) ≠ 1 := by
  obtain ⟨nr, hfold, _, _, hin, _⟩ :=
    normRowsFold exZeroRow (by decide) (by decide) (by decide) (List.range 1)
      (fun i hi => List.mem_range.mp hi) (List.nodup_range 1)
      (SpMat.ofDims 1 1) rfl rfl (by intro p hp; simp [SpMat.ofDims] at hp)
  have hnr : exZeroRow.getNormRows = .ok nr := by
    rw [SpMat.getNormRows]
    exact hfold
  have hrow0 : rowEntries exZeroRow.cols 0 nr.matrix =
      (rowEntries exZeroRow.cols 0 exZeroRow.matrix).map
        (fun p => (p.1, p.2 / rowDiv exZeroRow 0)) := hin 0 (by decide)
  have hentries : rowEntries exZeroRow.cols 0 exZeroRow.matrix = [(0, (0 : ℚ))] := by
    simp [rowEntries, exZeroRow]
  refine ⟨⟨nr, hnr, ?_⟩, ?_, by norm_num⟩
  · rw [rowL1, hrow0, hentries]
    simp
  · rw [hentries]
    simp

/-- Witness for C7 (amended) at the 1x2 matrix with row entries 3 and 1. -/
theorem C7_witness :
    ∃ nr, exQ.getNormRows = .ok nr ∧
      ∀ r, r < exQ.rows →
        rowEntries exQ.cols r nr.matrix =
          (rowEntries exQ.cols r exQ.matrix).map (fun p => (p.1, p.2 / rowDiv exQ r)) ∧
        rowL1 exQ.cols r nr.matrix =
          (if rowL1 exQ.cols r exQ.matrix < SpMat.eps then rowL1 exQ.cols r exQ.matrix
           else 1) :=
  C7_norm_rows exQ (by decide) (by decide) (by decide)

end DSM
